import Mathlib

/-!
Verification of the segregated-list malloc implementation in `mm.c`.

The development shallowly embeds the allocator at three granularities:

* pure size arithmetic (`round_up`, the malloc size adjustment) together with
  a 64-bit (`size_t`) variant where overflow is observable;
* a word-level memory model for `write_block` / `write_miniblock`, where a
  header or footer word is the record of the three status bits and the size
  that `pack` assembles;
* an executable state model of the whole allocator (implicit block list,
  ten segregated free lists, the mini list, the sbrk budget and the payload
  bytes) for `mm_init`, `malloc`, `free`, `realloc`, `calloc` and the
  heap checker, plus a relational model of the implicit list used for the
  reachability invariants (alignment, coalescing completeness).
-/

namespace MM

/-- Word and header size in bytes (`wsize` in mm.c). -/
def wsize : Nat := 8

/-- Double word size in bytes (`dsize` in mm.c). -/
def dsize : Nat := 2 * wsize

/-- Minimum block size in bytes; mm.c sets it to `dsize` (16, the mini class). -/
def min_block_size : Nat := dsize

/-- Heap extension granule (`chunksize = 1 << 12` in mm.c). -/
def chunksize : Nat := 2 ^ 12

/-- Number of segregated lists (`SEG_LIST_LEN` in mm.c). -/
def SEG_LIST_LEN : Nat := 10

/-- `max` from mm.c: `(x > y) ? x : y`. -/
def maxOf (x y : Nat) : Nat := if x > y then x else y

/-- `round_up` from mm.c: `n * ((size + (n - 1)) / n)`, in exact (unbounded)
arithmetic. -/
def round_up (size n : Nat) : Nat := n * ((size + (n - 1)) / n)

/-- `2 ^ 64`, the modulus of the C `size_t` arithmetic. -/
def wordModulus : Nat := 2 ^ 64

/-- `round_up` as the C program executes it on 64-bit `size_t`: the addition
`size + (n - 1)` and the final multiplication wrap modulo `2 ^ 64`. -/
def round_up_c (size n : Nat) : Nat :=
  (n * (((size + (n - 1)) % wordModulus) / n)) % wordModulus

/-- The adjusted block size malloc computes (mm.c line 1408:
`asize = round_up(size + wsize, dsize)`), in exact arithmetic. -/
def malloc_asize (size : Nat) : Nat := round_up (size + wsize) dsize

/-- The adjusted block size as the C program computes it on 64-bit `size_t`:
`size + wsize` wraps modulo `2 ^ 64` before `round_up` runs. -/
def malloc_asize_c (size : Nat) : Nat := round_up_c ((size + wsize) % wordModulus) dsize

theorem round_up_mod (s : Nat) : round_up s 16 % 16 = 0 := by
  simp [round_up, Nat.mul_mod_right]

theorem round_up_ge (s : Nat) (h : 1 ≤ s) : 16 ≤ round_up s 16 := by
  have h1 : 1 ≤ (s + 15) / 16 := by
    have : 16 ≤ s + 15 := by omega
    exact Nat.one_le_div_iff (by omega) |>.mpr this
  calc 16 = 16 * 1 := by omega
    _ ≤ 16 * ((s + 15) / 16) := Nat.mul_le_mul_left 16 h1
    _ = round_up s 16 := rfl

theorem round_up_le (s : Nat) : round_up s 16 ≤ s + 15 := by
  have := Nat.div_mul_le_self (s + 15) 16
  calc round_up s 16 = ((s + 15) / 16) * 16 := by
        simp [round_up, Nat.mul_comm]
    _ ≤ s + 15 := this

/-- C1/C4 helper: the exact-arithmetic size adjustment is a positive multiple
of 16 for every positive request. -/
theorem malloc_asize_pos (n : Nat) (h : 1 ≤ n) :
    malloc_asize n % 16 = 0 ∧ 16 ≤ malloc_asize n := by
  constructor
  · exact round_up_mod (n + wsize)
  · exact round_up_ge (n + wsize) (by omega)

/-- C4 counterexample: at `n = 2^64 - 8` (a positive request representable in
`size_t`), the addition `n + 8` wraps to zero, so the allocator computes
`asize = 0`, which is not at least 16: the floor of 16 does not hold for
every positive request. -/
theorem malloc_asize_overflow_cex :
    0 < 2 ^ 64 - 8 ∧ malloc_asize_c (2 ^ 64 - 8) = 0 ∧
      ¬ 16 ≤ malloc_asize_c (2 ^ 64 - 8) := by
  refine ⟨by norm_num, ?_, ?_⟩
  · decide
  · decide

/-- C4 (amended): for every `n` with `0 < n` and `n + 23 < 2 ^ 64` (so that
neither the `+ 8` for the header nor the `+ 15` inside `round_up` wraps), the
computed adjusted size equals `round_up (n + 8) 16` in exact arithmetic and is
at least 16. -/
theorem malloc_asize_correct (n : Nat) (h0 : 0 < n) (h1 : n + 23 < 2 ^ 64) :
    malloc_asize_c n = round_up (n + 8) 16 ∧ 16 ≤ malloc_asize_c n := by
  have hmod : (n + wsize) % wordModulus = n + 8 := by
    have : n + wsize < wordModulus := by
      simp only [wsize, wordModulus]; omega
    simpa [wsize] using Nat.mod_eq_of_lt this
  have hinner : (n + 8 + (dsize - 1)) % wordModulus = n + 8 + 15 := by
    apply Nat.mod_eq_of_lt
    simp only [dsize, wsize, wordModulus] at *
    omega
  have houter : 16 * ((n + 8 + 15) / 16) < wordModulus := by
    have hle : 16 * ((n + 8 + 15) / 16) ≤ n + 8 + 15 :=
      Nat.mul_div_le (n + 8 + 15) 16
    simp only [wordModulus] at *
    omega
  have hc : malloc_asize_c n = 16 * ((n + 8 + 15) / 16) := by
    simp only [malloc_asize_c, round_up_c, hmod, hinner]
    have h16 : dsize = 16 := by simp [dsize, wsize]
    simp only [h16]
    exact Nat.mod_eq_of_lt houter
  constructor
  · rw [hc]; simp [round_up]
  · rw [hc]
    have : 16 ≤ round_up (n + 8) 16 := round_up_ge _ (by omega)
    simpa [round_up] using this

/-- Witness for `malloc_asize_correct` at `n = 1`: the adjusted size is
`round_up 9 16 = 16`. -/
theorem malloc_asize_correct_witness :
    0 < 1 ∧ malloc_asize_c 1 = round_up (1 + 8) 16 ∧ 16 ≤ malloc_asize_c 1 :=
  ⟨by decide, (malloc_asize_correct 1 (by decide) (by norm_num)).1,
    (malloc_asize_correct 1 (by decide) (by norm_num)).2⟩

/-!
## Word-level memory model for the write-block contract (mm.c 466-534)

A header or footer word is modelled as the record of the fields `pack`
assembles: the size (upper bits) and the three status bits.  Memory maps a
byte address to the 8-byte word stored there (only addresses of headers and
footers are ever read or written by `write_block`).
-/

/-- A packed header/footer word: size plus the three status bits of mm.c. -/
structure Word where
  size : Nat
  alloc : Bool
  prev_alloc : Bool
  prev_mini : Bool
deriving DecidableEq

/-- `pack` from mm.c: assemble size and the three status bits into a word. -/
def pack (size : Nat) (alloc prev_alloc prev_mini : Bool) : Word :=
  ⟨size, alloc, prev_alloc, prev_mini⟩

/-- Heap memory at word granularity: byte address of a word to its value. -/
abbrev Mem := Nat → Word

/-- Store word `w` at byte address `a`. -/
def updateMem (m : Mem) (a : Nat) (w : Word) : Mem :=
  fun x => if x = a then w else m x

/-- `get_size` (via `extract_size`) on the word stored at block address `b`. -/
def mget_size (m : Mem) (b : Nat) : Nat := (m b).size

/-- `get_alloc` (via `extract_alloc`). -/
def mget_alloc (m : Mem) (b : Nat) : Bool := (m b).alloc

/-- `get_prev_alloc` (via `extract_prev_alloc`). -/
def mget_prev_alloc (m : Mem) (b : Nat) : Bool := (m b).prev_alloc

/-- `get_prev_mini` (via `extract_prev_mini`). -/
def mget_prev_mini (m : Mem) (b : Nat) : Bool := (m b).prev_mini

/-- `find_next` from mm.c: the next block starts `get_size(block)` bytes on. -/
def mfind_next (m : Mem) (b : Nat) : Nat := b + mget_size m b

/-- `header_to_footer` from mm.c: the footer sits at
`payload + size - dsize = block + size - wsize`. -/
def mheader_to_footer (m : Mem) (b : Nat) : Nat := b + wsize + mget_size m b - dsize

/-- `write_miniblock` from mm.c (lines 466-486).  Both branches of step 1
write only the header (a free mini block's next pointer is not part of the
header word), and both branches of step 2 write only the next block's header,
with `prev_alloc := alloc` and `prev_mini := true`. -/
def write_miniblock (m : Mem) (block size : Nat) (alloc prev_alloc prev_mini : Bool) : Mem :=
  let m1 := updateMem m block (pack size alloc prev_alloc prev_mini)
  let next_block := mfind_next m1 block
  let is_next_alloc := mget_alloc m1 next_block
  let next_size := mget_size m1 next_block
  updateMem m1 next_block (pack next_size is_next_alloc alloc true)

/-- `write_block` from mm.c (lines 499-534).  The mini case delegates to
`write_miniblock`.  In the general case, step 1 writes the header, and for a
free block also the footer; step 2 rewrites the next block's header with
`prev_alloc := alloc` and `prev_mini := false` — both branches of the
source's step 2 are identical and neither touches the next block's footer. -/
def write_block (m : Mem) (block size : Nat) (alloc prev_alloc prev_mini : Bool) : Mem :=
  if size = min_block_size then
    write_miniblock m block size alloc prev_alloc prev_mini
  else
    let m1 := updateMem m block (pack size alloc prev_alloc prev_mini)
    let m2 := if alloc then m1
      else updateMem m1 (mheader_to_footer m1 block) (pack size alloc prev_alloc prev_mini)
    let next_block := mfind_next m2 block
    let is_next_alloc := mget_alloc m2 next_block
    let next_size := mget_size m2 next_block
    updateMem m2 next_block (pack next_size is_next_alloc alloc false)

/-- A concrete heap fragment: an allocated 32-byte block at 16, followed at 48
by a free non-mini 32-byte block whose header and footer (at 72) agree. -/
def memC5 : Mem := fun a =>
  if a = 16 then ⟨32, true, true, false⟩
  else if a = 48 then ⟨32, false, true, false⟩
  else if a = 72 then ⟨32, false, true, false⟩
  else ⟨0, true, false, false⟩

/-- C5 counterexample: freeing the 32-byte block at 16
(`write_block(B, 32, false, ...)`) updates the next block's header so that its
`prev_alloc` bit becomes false, but the next block — free and non-mini — keeps
its old footer, which still carries `prev_alloc = true`: the footer is *not*
updated to match the new header, refuting the claim's footer clause. -/
theorem write_block_footer_cex :
    mget_alloc memC5 48 = false ∧ 32 ≤ mget_size memC5 48 ∧
    mheader_to_footer memC5 48 = 72 ∧
    mget_prev_alloc (write_block memC5 16 32 false true false) 48 = false ∧
    (write_block memC5 16 32 false true false) 72 ≠
      (write_block memC5 16 32 false true false) 48 := by
  refine ⟨by decide, by decide, by decide, by decide, by decide⟩

/-- C5 (amended): for every call `write_block(B, s, a, ...)` with `16 ≤ s`,
the next block's header is updated so that its `prev_alloc` bit equals `a`
and its `prev_mini` bit equals `(s == 16)`; but when the next block is free
and non-mini (size at least 32), its footer word is left unchanged rather
than being updated to match the new header. -/
theorem write_block_next_header (m : Mem) (block s : Nat) (a pa pm : Bool)
    (hs : 16 ≤ s) (hblk : 8 ≤ block) :
    mget_prev_alloc (write_block m block s a pa pm) (block + s) = a ∧
    mget_prev_mini (write_block m block s a pa pm) (block + s) = (s == 16) ∧
    (mget_alloc m (block + s) = false → 32 ≤ mget_size m (block + s) →
      (write_block m block s a pa pm) (block + s + mget_size m (block + s) - 8) =
        m (block + s + mget_size m (block + s) - 8)) := by
  have hmin : min_block_size = 16 := by decide
  by_cases h16 : s = 16
  · subst h16
    simp only [write_block, hmin, if_pos rfl, write_miniblock]
    have hnext : mfind_next (updateMem m block (pack 16 a pa pm)) block = block + 16 := by
      simp [mfind_next, mget_size, updateMem, pack]
    rw [hnext]
    refine ⟨?_, ?_, ?_⟩
    · simp [mget_prev_alloc, updateMem, pack]
    · simp [mget_prev_mini, updateMem, pack]
    · intro hfree hsize
      have hs1 : mget_size (updateMem m block (pack 16 a pa pm)) (block + 16)
          = mget_size m (block + 16) := by
        have hb : block + 16 ≠ block := by omega
        simp [mget_size, updateMem, hb]
      set ns := mget_size m (block + 16) with hns
      have hne1 : block + 16 + ns - 8 ≠ block + 16 := by omega
      have hne2 : block + 16 + ns - 8 ≠ block := by omega
      simp [updateMem, hne1, hne2]
  · simp only [write_block, hmin, if_neg h16]
    have hfoot : mheader_to_footer (updateMem m block (pack s a pa pm)) block
        = block + s - 8 := by
      simp [mheader_to_footer, mget_size, updateMem, pack, wsize, dsize]
      omega
    have hsizem2 : ∀ m2 : Mem, m2 block = pack s a pa pm → mfind_next m2 block = block + s := by
      intro m2 h2
      simp [mfind_next, mget_size, h2, pack]
    by_cases ha : a
    · subst ha
      simp only [if_pos rfl, if_true]
      have hm1 : (updateMem m block (pack s true pa pm)) block = pack s true pa pm := by
        simp [updateMem]
      rw [hsizem2 _ hm1]
      refine ⟨?_, ?_, ?_⟩
      · simp [mget_prev_alloc, updateMem, pack]
      · simp only [mget_prev_mini, updateMem, pack]
        have : ¬ (block + s = block) := by omega
        simp [this, beq_iff_eq, h16]
      · intro hfree hsize
        have hsz : mget_size (updateMem m block (pack s true pa pm)) (block + s)
            = mget_size m (block + s) := by
          have hb : block + s ≠ block := by omega
          simp [mget_size, updateMem, hb]
        rw [hsz]
        set ns := mget_size m (block + s) with hns
        have hne1 : block + s + ns - 8 ≠ block + s := by omega
        have hne2 : block + s + ns - 8 ≠ block := by omega
        simp [updateMem, hne1, hne2]
    · have ha' : a = false := by cases a <;> simp_all
      subst ha'
      simp only [if_neg (Bool.false_ne_true), Bool.false_eq_true, if_false]
      rw [hfoot]
      have hm2 : (updateMem (updateMem m block (pack s false pa pm)) (block + s - 8)
          (pack s false pa pm)) block = pack s false pa pm := by
        have : block ≠ block + s - 8 := by omega
        simp [updateMem, this]
      rw [hsizem2 _ hm2]
      refine ⟨?_, ?_, ?_⟩
      · have h1 : ¬ (block + s = block + s - 8) := by omega
        simp [mget_prev_alloc, updateMem, pack, h1]
      · have h1 : ¬ (block + s = block + s - 8) := by omega
        have h2 : ¬ (block + s = block) := by omega
        simp only [mget_prev_mini, updateMem, if_pos rfl, pack]
        simp [beq_iff_eq, h16]
      · intro hfree hsize
        have hsz : mget_size (updateMem (updateMem m block (pack s false pa pm))
            (block + s - 8) (pack s false pa pm)) (block + s) = mget_size m (block + s) := by
          have h1 : ¬ (block + s = block + s - 8) := by omega
          have h2 : ¬ (block + s = block) := by omega
          simp [mget_size, updateMem, h1, h2]
        rw [hsz]
        set ns := mget_size m (block + s) with hns
        have hne1 : block + s + ns - 8 ≠ block + s := by omega
        have hne2 : block + s + ns - 8 ≠ block + s - 8 := by omega
        have hne3 : block + s + ns - 8 ≠ block := by omega
        simp [updateMem, hne1, hne2, hne3]

/-- Witness for `write_block_next_header` on the concrete fragment `memC5`:
marking the block at 16 allocated updates the header at 48 and leaves the
footer word at 72 alone. -/
theorem write_block_next_header_witness :
    mget_prev_alloc (write_block memC5 16 32 true true false) 48 = true ∧
    mget_prev_mini (write_block memC5 16 32 true true false) 48 = (32 == 16) ∧
    (write_block memC5 16 32 true true false) 72 = memC5 72 := by
  have h := write_block_next_header memC5 16 32 true true false (by decide) (by decide)
  refine ⟨h.1, h.2.1, ?_⟩
  have := h.2.2 (by decide) (by decide)
  simpa using this

/-!
## The fit finder (mm.c 940-1015)

A free-list node is viewed as the pair of its address and its header size;
a segregated list (or the mini list) is the Lean list of its nodes in link
order.  `find_fit` below is the source algorithm; `find_fit_spec` transcribes
the spec's §4.5 description; the two are proved equal.
-/

/-- A free-list node: the block's address and its (header) size. -/
structure Blk where
  addr : Nat
  size : Nat
deriving DecidableEq

/-- `find_mini_fit` from mm.c: if the mini list is non-empty return its head,
otherwise null.  The `asize` argument is unused, as in the source. -/
def find_mini_fit (mini_list_start : List Blk) (asize : Nat) : Option Blk :=
  mini_list_start.head?

/-- `determine_seg_index` from mm.c: the size class of a block size, with the
group bounds 16, 32, 64, 128, 256, 512, 1024, 2048, 4096, ∞. -/
def determine_seg_index (size : Nat) : Nat :=
  if size ≤ 16 then 0
  else if size ≤ 32 then 1
  else if size ≤ 64 then 2
  else if size ≤ 128 then 3
  else if size ≤ 256 then 4
  else if size ≤ 512 then 5
  else if size ≤ 1024 then 6
  else if size ≤ 2048 then 7
  else if size ≤ 4096 then 8
  else 9

/-- The inner better-fit loop of `find_fit` (mm.c 990-1004): walk the list
from the anchor, remember the smallest block of size at least `asize` seen so
far (`best_fit`/`best_size`, ties kept at the earlier block), and stop after
the iteration whose counter is 20. -/
def best_loop (asize : Nat) : List Blk → Blk → Nat → Nat → Blk
  | [], best_fit, _, _ => best_fit
  | compare_block :: rest, best_fit, best_size, counter =>
    if compare_block.size < best_size ∧ asize ≤ compare_block.size then
      if counter = 20 then compare_block
      else best_loop asize rest compare_block compare_block.size (counter + 1)
    else
      if counter = 20 then best_fit
      else best_loop asize rest best_fit best_size (counter + 1)

/-- The per-class walk of `find_fit` (mm.c 980-1010): find the first block of
size at least `asize`; from it, run the bounded better-fit loop (whose first
iteration revisits the anchor itself). -/
def seg_scan (asize : Nat) : List Blk → Option Blk
  | [] => none
  | block :: rest =>
    if asize ≤ block.size then some (best_loop asize (block :: rest) block block.size 0)
    else seg_scan asize rest

/-- The outer loop of `find_fit` (mm.c 977): try each class from the start
index up to class 9. -/
def classes_scan (asize : Nat) : List (List Blk) → Option Blk
  | [] => none
  | l :: ls =>
    match seg_scan asize l with
    | some b => some b
    | none => classes_scan asize ls

/-- `find_fit` from mm.c (lines 958-1015): the mini path for `asize == 16`,
otherwise the segregated search from `determine_seg_index asize` upwards. -/
def find_fit (mini_list_start : List Blk) (segment_list : List (List Blk))
    (asize : Nat) : Option Blk :=
  let mini_block_fit :=
    if asize = min_block_size then find_mini_fit mini_list_start asize else none
  match mini_block_fit with
  | some b => some b
  | none => classes_scan asize (segment_list.drop (determine_seg_index asize))

/-- First-seen minimum-size element: the accumulator is replaced only by a
strictly smaller block, so ties keep the earlier block. -/
def argminFirstAux (b : Blk) : List Blk → Blk
  | [] => b
  | c :: rest => if c.size < b.size then argminFirstAux c rest else argminFirstAux b rest

/-- The smallest block of a list, ties broken by first-seen. -/
def argminFirst : List Blk → Option Blk
  | [] => none
  | c :: rest => some (argminFirstAux c rest)

/-- The spec's §4.5 step 2-3 for one class, written from the spec's words:
the anchor is the first block of size ≥ `asize`; among the blocks scanned
from the anchor — the anchor as the 0th iteration plus up to 20 further
blocks — keep those with size ≥ `asize` and return the smallest, ties broken
by first-seen. -/
def spec_class_fit (asize : Nat) (l : List Blk) : Option Blk :=
  let fromAnchor := l.dropWhile (fun b => b.size < asize)
  argminFirst ((fromAnchor.take 21).filter (fun b => asize ≤ b.size))

/-- The spec's climb over classes: the first class whose scan yields a fit. -/
def spec_classes (asize : Nat) : List (List Blk) → Option Blk
  | [] => none
  | l :: ls =>
    match spec_class_fit asize l with
    | some b => some b
    | none => spec_classes asize ls

/-- The spec's §4.5 fit finder, written from the spec's words. -/
def find_fit_spec (mini : List Blk) (seg : List (List Blk)) (asize : Nat) : Option Blk :=
  if asize = 16 ∧ mini ≠ [] then mini.head?
  else spec_classes asize (seg.drop (determine_seg_index asize))

/-- Unbounded left-to-right better-fit scan, the limit of `best_loop`. -/
def minScan (asize : Nat) : List Blk → Blk → Nat → Blk
  | [], b, _ => b
  | c :: rest, b, bS =>
    if c.size < bS ∧ asize ≤ c.size then minScan asize rest c c.size
    else minScan asize rest b bS

theorem best_loop_eq_minScan (asize : Nat) (l : List Blk) :
    ∀ (b : Blk) (bS cnt : Nat), cnt ≤ 20 →
      best_loop asize l b bS cnt = minScan asize (l.take (21 - cnt)) b bS := by
  induction l with
  | nil => intro b bS cnt _; simp [best_loop, minScan]
  | cons c rest ih =>
    intro b bS cnt hcnt
    have h21 : 21 - cnt = (20 - cnt) + 1 := by omega
    rw [h21]
    rw [List.take_succ_cons]
    by_cases hcond : c.size < bS ∧ asize ≤ c.size
    · rw [best_loop, if_pos hcond, minScan, if_pos hcond]
      by_cases h20 : cnt = 20
      · subst h20
        simp [minScan]
      · rw [if_neg h20, ih c c.size (cnt + 1) (by omega)]
        have heq : 21 - (cnt + 1) = 20 - cnt := by omega
        rw [heq]
    · rw [best_loop, if_neg hcond, minScan, if_neg hcond]
      by_cases h20 : cnt = 20
      · subst h20
        simp [minScan]
      · rw [if_neg h20, ih b bS (cnt + 1) (by omega)]
        have heq : 21 - (cnt + 1) = 20 - cnt := by omega
        rw [heq]

theorem minScan_eq_argmin (asize : Nat) (l : List Blk) :
    ∀ b : Blk, minScan asize l b b.size =
      argminFirstAux b (l.filter (fun c => asize ≤ c.size)) := by
  induction l with
  | nil => intro b; simp [minScan, argminFirstAux]
  | cons c rest ih =>
    intro b
    by_cases hge : asize ≤ c.size
    · have hfc : List.filter (fun c => decide (asize ≤ c.size)) (c :: rest)
          = c :: List.filter (fun c => decide (asize ≤ c.size)) rest := by
        simp [List.filter_cons, hge]
      by_cases hlt : c.size < b.size
      · have hcond : c.size < b.size ∧ asize ≤ c.size := ⟨hlt, hge⟩
        rw [minScan, if_pos hcond]
        rw [show List.filter (fun c => asize ≤ c.size) (c :: rest)
            = c :: List.filter (fun c => asize ≤ c.size) rest from hfc]
        rw [argminFirstAux, if_pos hlt]
        exact ih c
      · have hcond : ¬ (c.size < b.size ∧ asize ≤ c.size) := fun h => hlt h.1
        rw [minScan, if_neg hcond]
        rw [show List.filter (fun c => asize ≤ c.size) (c :: rest)
            = c :: List.filter (fun c => asize ≤ c.size) rest from hfc]
        rw [argminFirstAux, if_neg hlt]
        exact ih b
    · have hcond : ¬ (c.size < b.size ∧ asize ≤ c.size) := fun h => hge h.2
      rw [minScan, if_neg hcond]
      have hfc : List.filter (fun c => decide (asize ≤ c.size)) (c :: rest)
          = List.filter (fun c => decide (asize ≤ c.size)) rest := by
        simp [List.filter_cons, hge]
      rw [show List.filter (fun c => asize ≤ c.size) (c :: rest)
          = List.filter (fun c => asize ≤ c.size) rest from hfc]
      exact ih b

theorem seg_scan_eq_spec (asize : Nat) (l : List Blk) :
    seg_scan asize l = spec_class_fit asize l := by
  induction l with
  | nil => simp [seg_scan, spec_class_fit, argminFirst]
  | cons b rest ih =>
    by_cases hfit : asize ≤ b.size
    · have hnp : ¬ (b.size < asize) := by omega
      rw [seg_scan, if_pos hfit]
      rw [best_loop_eq_minScan asize (b :: rest) b b.size 0 (by omega)]
      have h21 : (21 : Nat) - 0 = 21 := rfl
      rw [h21, List.take_succ_cons, minScan]
      have hself : ¬ (b.size < b.size ∧ asize ≤ b.size) := fun h => Nat.lt_irrefl _ h.1
      rw [if_neg hself, minScan_eq_argmin asize (List.take 20 rest) b]
      have hdrop : List.dropWhile (fun c => decide (c.size < asize)) (b :: rest)
          = b :: rest := by
        rw [List.dropWhile_cons]
        simp [hnp]
      simp only [spec_class_fit]
      rw [show List.dropWhile (fun c : Blk => c.size < asize) (b :: rest)
          = b :: rest from hdrop]
      rw [List.take_succ_cons]
      have hfc : List.filter (fun c => decide (asize ≤ c.size)) (b :: List.take 20 rest)
          = b :: List.filter (fun c => decide (asize ≤ c.size)) (List.take 20 rest) := by
        simp [List.filter_cons, hfit]
      rw [show List.filter (fun c : Blk => asize ≤ c.size) (b :: List.take 20 rest)
          = b :: List.filter (fun c : Blk => asize ≤ c.size) (List.take 20 rest) from hfc]
      rfl
    · have hlt : b.size < asize := by omega
      rw [seg_scan, if_neg hfit]
      simp only [spec_class_fit]
      have hdrop : List.dropWhile (fun c => decide (c.size < asize)) (b :: rest)
          = List.dropWhile (fun c => decide (c.size < asize)) rest := by
        rw [List.dropWhile_cons]
        simp [hlt]
      rw [show List.dropWhile (fun c : Blk => c.size < asize) (b :: rest)
          = List.dropWhile (fun c : Blk => c.size < asize) rest from hdrop]
      exact ih

theorem classes_scan_eq_spec (asize : Nat) (ls : List (List Blk)) :
    classes_scan asize ls = spec_classes asize ls := by
  induction ls with
  | nil => rfl
  | cons l rest ih =>
    simp only [classes_scan, spec_classes, seg_scan_eq_spec asize l]
    cases spec_class_fit asize l with
    | none => exact ih
    | some b => rfl

/-- C3: `find_fit` agrees with the spec's fit-selection policy: the mini-list
head when `asize = 16` and the mini list is non-empty; otherwise, from
`determine_seg_index asize` climbing to class 9, the first class containing a
block of size ≥ `asize` is scanned from that anchor through at most 20
further blocks, and the smallest scanned block of size ≥ `asize` is returned
with ties broken by first-seen; null when no class yields a fit. -/
theorem find_fit_eq_spec (mini : List Blk) (seg : List (List Blk)) (asize : Nat) :
    find_fit mini seg asize = find_fit_spec mini seg asize := by
  have hmin : min_block_size = 16 := by decide
  by_cases h16 : asize = 16
  · subst h16
    cases mini with
    | nil =>
      have h2 : find_fit_spec [] seg 16 = spec_classes 16 (seg.drop (determine_seg_index 16)) := by
        simp [find_fit_spec]
      rw [h2]
      exact classes_scan_eq_spec 16 _
    | cons b rest =>
      have h2 : find_fit_spec (b :: rest) seg 16 = some b := by
        simp [find_fit_spec]
      rw [h2]
      rfl
  · have h1 : find_fit mini seg asize
        = classes_scan asize (seg.drop (determine_seg_index asize)) := by
      simp only [find_fit, hmin, if_neg h16]
    have h2 : find_fit_spec mini seg asize
        = spec_classes asize (seg.drop (determine_seg_index asize)) := by
      have hc : ¬ (asize = 16 ∧ mini ≠ []) := fun h => h16 h.1
      simp only [find_fit_spec, if_neg hc]
    rw [h1, h2]
    exact classes_scan_eq_spec asize _

/-!
## Executable model of the allocator state and API (mm.c 608-1555)

The heap region is modelled with its base at address 0: the 8-byte prologue
word occupies [0, 8), the first block header sits at address 8 (`heap_start`
in mm.c points there), and the epilogue word follows the last block.  The
state carries the implicit block list in address order (sentinels excluded),
the ten segregated lists and the mini list as lists of free-list nodes in
link order, the number of bytes `mem_sbrk` can still provide, and the bytes
of the heap payloads.  Linked-list structure (next/prev pointers) is
represented by the Lean list order; a block pointer is its address.
-/

/-- A block of the implicit list: its size and allocation bit.  The
`prev_alloc`/`prev_mini` header bits and the footers of free blocks are
represented structurally: mm.c keeps them equal to the neighbouring block's
actual status (every block write goes through `write_block`), which the
word-level model above makes precise. -/
structure Block where
  size : Nat
  alloc : Bool
deriving DecidableEq

/-- The allocator's global state. -/
structure CHeap where
  heap_start : Option Nat
  blocks : List Block
  segment_list : List (List Blk)
  mini_list : List Blk
  avail : Nat
  data : Nat → Nat

/-- `mem_heap_lo()`: the heap base, placed at address 0 in the model. -/
def mem_heap_lo : Nat := 0

/-- The address of the first block header: the word after the prologue
(mm.c 1365: `heap_start = (block_t *)&(start[1])`). -/
def firstBlockAddr : Nat := mem_heap_lo + wsize

/-- Total bytes of the implicit list. -/
def sumSizes (bs : List Block) : Nat := (bs.map (fun b => b.size)).sum

/-- Address of the i-th block's header. -/
def addrAt (bs : List Block) (i : Nat) : Nat := firstBlockAddr + sumSizes (bs.take i)

/-- `mem_heap_hi()`: the last byte of the region
(prologue + blocks + epilogue, minus one). -/
def mem_heap_hi (bs : List Block) : Nat := 2 * wsize + sumSizes bs - 1

/-- Walk the implicit list and return the index of the block whose header
sits at address `a` (the inverse of the pointer arithmetic of mm.c). -/
def findBlockIdx : List Block → Nat → Nat → Option Nat
  | [], _, _ => none
  | b :: rest, cur, a =>
    if cur = a then some 0
    else (findBlockIdx rest (cur + b.size) a).map (· + 1)

/-- Index of the block with header address `a`. -/
def lookupIdx (bs : List Block) (a : Nat) : Option Nat := findBlockIdx bs firstBlockAddr a

/-- The free-list node view of the i-th block. -/
def blkAt (bs : List Block) (i : Nat) : Blk := ⟨addrAt bs i, (bs.getD i ⟨0, true⟩).size⟩

/-- `add_to_mini_free_list` from mm.c: LIFO prepend (both the empty and the
general branch of the source prepend the block and make it the new head). -/
def add_to_mini_free_list (st : CHeap) (block : Blk) : CHeap :=
  { st with mini_list := block :: st.mini_list }

/-- `add_to_free_list` from mm.c: mini blocks go to the mini list, others are
prepended to the segregated list of their class. -/
def add_to_free_list (st : CHeap) (block : Blk) : CHeap :=
  if block.size = min_block_size then add_to_mini_free_list st block
  else
    let index := determine_seg_index block.size
    { st with segment_list :=
        st.segment_list.set index (block :: st.segment_list.getD index []) }

/-- Remove the first node with address `a`; if no node matches, the list is
returned unchanged (the source's not-found path also returns). -/
def removeByAddr : List Blk → Nat → List Blk
  | [], _ => []
  | b :: rest, a => if b.addr = a then rest else b :: removeByAddr rest a

/-- `remove_from_mini_free_list` from mm.c: linear scan and unlink. -/
def remove_from_mini_free_list (st : CHeap) (block : Blk) : CHeap :=
  { st with mini_list := removeByAddr st.mini_list block.addr }

/-- `remove_from_free_list` from mm.c: mini blocks leave the mini list;
others are spliced out of the segregated list of their class. -/
def remove_from_free_list (st : CHeap) (block : Blk) : CHeap :=
  if block.size = min_block_size then remove_from_mini_free_list st block
  else
    let index := determine_seg_index block.size
    { st with segment_list :=
        st.segment_list.set index (removeByAddr (st.segment_list.getD index []) block.addr) }

/-- `coalesce_block`'s effect on the implicit list `pre ++ [b] ++ post`
(mm.c 747-850), `b` already marked free: the four cases on whether the
address-order neighbours are free (the prologue and epilogue, beyond the
ends, are allocated). -/
def coalesce_block (pre : List Block) (b : Block) (post : List Block) : List Block :=
  let prev_free := match pre.getLast? with
    | some p => !p.alloc
    | none => false
  let next_free := match post.head? with
    | some n => !n.alloc
    | none => false
  if !prev_free && !next_free then pre ++ b :: post
  else if !prev_free && next_free then
    pre ++ ⟨b.size + (post.headD ⟨0, true⟩).size, false⟩ :: post.tail
  else if prev_free && !next_free then
    pre.dropLast ++ ⟨(pre.getLastD ⟨0, true⟩).size + b.size, false⟩ :: post
  else
    pre.dropLast ++
      ⟨(pre.getLastD ⟨0, true⟩).size + b.size + (post.headD ⟨0, true⟩).size, false⟩ ::
        post.tail

/-- `coalesce_block` from mm.c applied at index `i` of the implicit list
(the block there already marked free by the caller): the merge itself is
`coalesce_block` above with `pre`/`post` the blocks before/after index `i`;
the same four cases decide which free neighbours to unlink before the merge,
and the merged block is pushed onto the appropriate free pool.  Returns the
state and the index of the coalesced block. -/
def coalesce_at (st : CHeap) (i : Nat) : CHeap × Nat :=
  let bs := st.blocks
  let b := bs.getD i ⟨0, true⟩
  let pre := bs.take i
  let post := bs.drop (i + 1)
  let bs2 := coalesce_block pre b post
  let prev_free := match pre.getLast? with
    | some p => !p.alloc
    | none => false
  let next_free := match post.head? with
    | some n => !n.alloc
    | none => false
  if !prev_free && !next_free then
    (add_to_free_list { st with blocks := bs2 } (blkAt bs2 i), i)
  else if !prev_free && next_free then
    let st1 := remove_from_free_list st (blkAt bs (i + 1))
    let st2 := { st1 with blocks := bs2 }
    (add_to_free_list st2 (blkAt bs2 i), i)
  else if prev_free && !next_free then
    let st1 := remove_from_free_list st (blkAt bs (i - 1))
    let st2 := { st1 with blocks := bs2 }
    (add_to_free_list st2 (blkAt bs2 (i - 1)), i - 1)
  else
    let st1 := remove_from_free_list
      (remove_from_free_list st (blkAt bs (i - 1))) (blkAt bs (i + 1))
    let st2 := { st1 with blocks := bs2 }
    (add_to_free_list st2 (blkAt bs2 (i - 1)), i - 1)

/-- `extend_heap` from mm.c (lines 860-882): round the request up, take the
bytes from `mem_sbrk` (modelled by the `avail` budget; failure if exhausted),
append the new region as one free block (the epilogue moves to the new top),
and coalesce it with the previous block.  Returns the index of the resulting
free block. -/
def extend_heap (st : CHeap) (size : Nat) : CHeap × Option Nat :=
  let sz := round_up size dsize
  if sz ≤ st.avail then
    let st1 := { st with avail := st.avail - sz, blocks := st.blocks ++ [⟨sz, false⟩] }
    let r := coalesce_at st1 st.blocks.length
    (r.1, some r.2)
  else (st, none)

/-- `split_block` from mm.c (lines 893-931): if the allocated block at index
`i` exceeds `asize` by at least a mini block, shrink it to `asize` and write
the remainder as a free block, pushed onto the appropriate free pool. -/
def split_block (st : CHeap) (i asize : Nat) : CHeap :=
  let block_size := (st.blocks.getD i ⟨0, true⟩).size
  if min_block_size ≤ block_size - asize then
    let bs2 := st.blocks.take i ++
      ⟨asize, true⟩ :: ⟨block_size - asize, false⟩ :: st.blocks.drop (i + 1)
    let st1 := { st with blocks := bs2 }
    add_to_free_list st1 ⟨addrAt bs2 (i + 1), block_size - asize⟩
  else st

/-- `mm_init` from mm.c (lines 1340-1373): take 16 bytes from the provider,
install the prologue and epilogue sentinels, clear the ten segregated lists
and the mini list, set `heap_start`, and extend the empty heap by
`chunksize`. -/
def mm_init (st : CHeap) : CHeap × Bool :=
  if 2 * wsize ≤ st.avail then
    let st1 := { st with
      avail := st.avail - 2 * wsize,
      segment_list := List.replicate SEG_LIST_LEN ([] : List Blk),
      mini_list := ([] : List Blk),
      blocks := ([] : List Block),
      heap_start := some firstBlockAddr }
    match extend_heap st1 chunksize with
    | (st2, some _) => (st2, true)
    | (st2, none) => (st2, false)
  else (st, false)

/-- The placement half of `malloc` (mm.c 1425-1444): mark the found block
allocated, unlink it, split the trailing remainder, and return the payload
address (`header_to_payload`: header address + 8). -/
def alloc_finish (st : CHeap) (i asize : Nat) : CHeap × Option Nat :=
  let block_size := (st.blocks.getD i ⟨0, true⟩).size
  let addr := addrAt st.blocks i
  let st1 := { st with blocks := st.blocks.set i ⟨block_size, true⟩ }
  let st2 := remove_from_free_list st1 ⟨addr, block_size⟩
  let st3 := split_block st2 i asize
  (st3, some (addr + wsize))

/-- The body of `malloc` after the initialization check (mm.c 1400-1444):
ignore a zero request, adjust the size, search the free lists, extend the
heap when no fit exists, and place the block.  The `lookupIdx` guard
translates the fit's address back to its implicit-list index; it cannot fail
on states whose free lists point at heap blocks. -/
def malloc_body (st : CHeap) (size : Nat) : CHeap × Option Nat :=
  if size = 0 then (st, none)
  else
    let asize := round_up (size + wsize) dsize
    match find_fit st.mini_list st.segment_list asize with
    | some blk =>
      match lookupIdx st.blocks blk.addr with
      | some i => alloc_finish st i asize
      | none => (st, none)
    | none =>
      let extendsize := maxOf asize chunksize
      match extend_heap st extendsize with
      | (st1, some i) => alloc_finish st1 i asize
      | (st1, none) => (st1, none)

/-- `malloc` from mm.c (lines 1383-1445): initialize the heap first if
`heap_start` is still null, then run the body. -/
def malloc (st : CHeap) (size : Nat) : CHeap × Option Nat :=
  match st.heap_start with
  | none =>
    match mm_init st with
    | (st1, true) => malloc_body st1 size
    | (st1, false) => (st1, none)
  | some _ => malloc_body st size

/-- `free` from mm.c (lines 1454-1477): null is a no-op; otherwise mark the
block free and coalesce it with its neighbours.  An address that is not a
block of the heap is undefined behaviour in the source; the model leaves the
state unchanged. -/
def free (st : CHeap) (bp : Nat) : CHeap :=
  if bp = 0 then st
  else
    match lookupIdx st.blocks (bp - wsize) with
    | some i =>
      let size := (st.blocks.getD i ⟨0, true⟩).size
      let st1 := { st with blocks := st.blocks.set i ⟨size, false⟩ }
      (coalesce_at st1 i).1
    | none => st

/-- `mem_memcpy`: copy `n` bytes from `src` to `dst`. -/
def memcpy (st : CHeap) (dst src n : Nat) : CHeap :=
  { st with data := fun x => if dst ≤ x ∧ x < dst + n then st.data (src + (x - dst)) else st.data x }

/-- `mem_memset`: store byte `v` in `[p, p + n)`. -/
def memset (st : CHeap) (p v n : Nat) : CHeap :=
  { st with data := fun x => if p ≤ x ∧ x < p + n then v else st.data x }

/-- `realloc` from mm.c (lines 1488-1523): size 0 frees; a null pointer is a
plain malloc; otherwise allocate the new block first — returning null with
nothing else done if that fails — then copy `min(size, old payload size)`
bytes and free the old block. -/
def realloc (st : CHeap) (ptr size : Nat) : CHeap × Option Nat :=
  if size = 0 then (free st ptr, none)
  else if ptr = 0 then malloc st size
  else
    match malloc st size with
    | (st1, none) => (st1, none)
    | (st1, some newptr) =>
      let copysize :=
        match lookupIdx st1.blocks (ptr - wsize) with
        | some i =>
          let s := (st1.blocks.getD i ⟨0, true⟩).size - wsize
          if size < s then size else s
        | none => 0
      let st2 := memcpy st1 newptr ptr copysize
      let st3 := free st2 ptr
      (st3, some newptr)

/-- `calloc` from mm.c (lines 1534-1555): `asize = elements * size` in
`size_t` arithmetic; null when `elements == 0` or when the division check
detects overflow; otherwise malloc and zero the `asize` payload bytes. -/
def calloc (st : CHeap) (elements size : Nat) : CHeap × Option Nat :=
  let asize := (elements * size) % wordModulus
  if elements = 0 then (st, none)
  else if asize / elements ≠ size then (st, none)
  else
    match malloc st asize with
    | (st1, none) => (st1, none)
    | (st1, some bp) => (memset st1 bp 0 asize, some bp)

theorem extend_heap_none (st : CHeap) (s : Nat) (h : (extend_heap st s).2 = none) :
    (extend_heap st s).1 = st := by
  by_cases hc : round_up s dsize ≤ st.avail
  · simp [extend_heap, hc] at h
  · simp [extend_heap, hc]

theorem malloc_body_none (st : CHeap) (n : Nat) (h : (malloc_body st n).2 = none) :
    (malloc_body st n).1 = st := by
  unfold malloc_body at h ⊢
  by_cases h0 : n = 0
  · simp [h0]
  · simp only [if_neg h0] at h ⊢
    cases hf : find_fit st.mini_list st.segment_list (round_up (n + wsize) dsize) with
    | some blk =>
      simp only [hf] at h ⊢
      cases hl : lookupIdx st.blocks blk.addr with
      | some i =>
        simp only [hl] at h
        simp [alloc_finish] at h
      | none => simp [hl]
    | none =>
      simp only [hf] at h ⊢
      cases he : extend_heap st (maxOf (round_up (n + wsize) dsize) chunksize) with
      | mk st1 r =>
        cases r with
        | some i =>
          simp only [he] at h
          simp [alloc_finish] at h
        | none =>
          simp only [he]
          have h1 : (extend_heap st (maxOf (round_up (n + wsize) dsize) chunksize)).1 = st :=
            extend_heap_none st _ (by rw [he])
          rw [he] at h1
          exact h1

theorem malloc_none (st : CHeap) (n : Nat) (hi : st.heap_start.isSome = true)
    (h : (malloc st n).2 = none) : (malloc st n).1 = st := by
  cases hs : st.heap_start with
  | none => rw [hs] at hi; simp at hi
  | some a =>
    simp only [malloc, hs] at h ⊢
    exact malloc_body_none st n h

/-- C7: if the internal allocation inside `realloc(p, n)` fails on an
initialized heap (with `n > 0` and `p` non-null), `realloc` returns null and
the state — the implicit list, the free lists, and every payload byte, in
particular the block at `p` — is exactly as before the call: the copy and
the free of the old block never run. -/
theorem realloc_fail_untouched (st : CHeap) (ptr n : Nat)
    (hi : st.heap_start.isSome = true) (hn : n ≠ 0) (hp : ptr ≠ 0)
    (hfail : (malloc st n).2 = none) :
    realloc st ptr n = (st, none) := by
  unfold realloc
  rw [if_neg hn, if_neg hp]
  cases hm : malloc st n with
  | mk st1 r =>
    cases r with
    | none =>
      have h1 : st1 = st := by
        have h2 := malloc_none st n hi (by rw [hm])
        rw [hm] at h2
        exact h2
      simp [h1]
    | some p => rw [hm] at hfail; simp at hfail

/-- An initialized heap with a single allocated 16-byte block, empty free
lists and an exhausted region provider: any further allocation fails. -/
def stC7 : CHeap := ⟨some 8, [⟨16, true⟩], List.replicate SEG_LIST_LEN [], [], 0, fun _ => 0⟩

/-- Witness for `realloc_fail_untouched`: on `stC7`, `realloc(16, 100)` fails
and returns the state unchanged. -/
theorem realloc_fail_untouched_witness : realloc stC7 16 100 = (stC7, none) :=
  realloc_fail_untouched stC7 16 100 (by decide) (by decide) (by decide) (by decide)

theorem add_to_free_list_heap_start (st : CHeap) (b : Blk) :
    (add_to_free_list st b).heap_start = st.heap_start := by
  unfold add_to_free_list add_to_mini_free_list
  split <;> rfl

theorem remove_from_free_list_heap_start (st : CHeap) (b : Blk) :
    (remove_from_free_list st b).heap_start = st.heap_start := by
  unfold remove_from_free_list remove_from_mini_free_list
  split <;> rfl

theorem coalesce_at_heap_start (st : CHeap) (i : Nat) :
    ((coalesce_at st i).1).heap_start = st.heap_start := by
  unfold coalesce_at
  dsimp only
  split_ifs with h1 h2 h3 <;>
    simp [add_to_free_list_heap_start, remove_from_free_list_heap_start]

theorem extend_heap_heap_start (st : CHeap) (s : Nat) :
    ((extend_heap st s).1).heap_start = st.heap_start := by
  unfold extend_heap
  by_cases hc : round_up s dsize ≤ st.avail
  · simp only [if_pos hc]
    exact coalesce_at_heap_start _ _
  · simp only [if_neg hc]

theorem mm_init_heap_start (st : CHeap) (h : (mm_init st).2 = true) :
    (mm_init st).1.heap_start = some firstBlockAddr := by
  unfold mm_init at h ⊢
  by_cases hc : 2 * wsize ≤ st.avail
  · simp only [if_pos hc] at h ⊢
    cases he : extend_heap { st with
        avail := st.avail - 2 * wsize,
        segment_list := List.replicate SEG_LIST_LEN ([] : List Blk),
        mini_list := ([] : List Blk),
        blocks := ([] : List Block),
        heap_start := some firstBlockAddr } chunksize with
    | mk st2 r =>
      have h2 := extend_heap_heap_start { st with
        avail := st.avail - 2 * wsize,
        segment_list := List.replicate SEG_LIST_LEN ([] : List Blk),
        mini_list := ([] : List Blk),
        blocks := ([] : List Block),
        heap_start := some firstBlockAddr } chunksize
      rw [he] at h2
      cases r with
      | some i => simp only [he]; exact h2
      | none => rw [he] at h; simp at h
  · simp only [if_neg hc] at h
    simp at h

/-- C10: a `malloc` on an uninitialized heap (`heap_start` null) first runs
`mm_init` — which installs the sentinels, clears the ten segregated lists
and the mini list, and extends the heap by `chunksize` — and then services
the request exactly as a `malloc` on the initialized heap would: a first
allocation without a prior explicit init behaves like `init()` followed by
`allocate(n)`. -/
theorem malloc_autoinit (st : CHeap) (n : Nat) (h0 : st.heap_start = none)
    (hs : (mm_init st).2 = true) :
    malloc st n = malloc (mm_init st).1 n := by
  have h1 : (mm_init st).1.heap_start = some firstBlockAddr := mm_init_heap_start st hs
  cases hm : mm_init st with
  | mk st1 b =>
    have hb : b = true := by rw [hm] at hs; exact hs
    subst hb
    rw [hm] at h1
    simp only at h1
    have hl : malloc st n = malloc_body st1 n := by
      simp only [malloc, h0, hm]
    have hr : malloc st1 n = malloc_body st1 n := by
      simp only [malloc, h1]
    rw [hl, ← hr]

/-- An uninitialized state with a generous provider budget. -/
def stFresh : CHeap := ⟨none, [], List.replicate SEG_LIST_LEN [], [], 2 ^ 20, fun _ => 0⟩

/-- Witness for `malloc_autoinit`: the first `malloc(24)` on the fresh state
equals `mm_init` followed by `malloc(24)`. -/
theorem malloc_autoinit_witness : malloc stFresh 24 = malloc (mm_init stFresh).1 24 :=
  malloc_autoinit stFresh 24 (by decide) (by decide)

/-- C8: `calloc(k, n)` returns null when `k = 0` and when the 64-bit product
`k * n` overflows (the division check catches every overflow); and whenever
it returns a pointer, all `k * n` payload bytes of the final state are
zero. -/
theorem calloc_spec (st : CHeap) (k n : Nat) :
    (k = 0 → (calloc st k n).2 = none) ∧
    (wordModulus ≤ k * n → (calloc st k n).2 = none) ∧
    (∀ p, (calloc st k n).2 = some p → ∀ j, j < k * n → (calloc st k n).1.data (p + j) = 0) := by
  refine ⟨?_, ?_, ?_⟩
  · intro hk
    simp [calloc, hk]
  · intro hov
    have hk : k ≠ 0 := by
      intro hk0
      rw [hk0] at hov
      simp [wordModulus] at hov
    have hlt : (k * n) % wordModulus < k * n :=
      Nat.lt_of_lt_of_le (Nat.mod_lt _ (by simp [wordModulus])) hov
    have hne : (k * n) % wordModulus / k ≠ n := by
      intro heq
      have h1 : ((k * n) % wordModulus / k) * k ≤ (k * n) % wordModulus :=
        Nat.div_mul_le_self _ _
      rw [heq] at h1
      rw [Nat.mul_comm] at h1
      omega
    simp [calloc, hk, hne]
  · intro p hp j hj
    by_cases hk : k = 0
    · simp [calloc, hk] at hp
    · by_cases hne : (k * n) % wordModulus / k ≠ n
      · simp [calloc, hk, hne] at hp
      · push_neg at hne
        have hle1 : k * n ≤ (k * n) % wordModulus := by
          have h1 : ((k * n) % wordModulus / k) * k ≤ (k * n) % wordModulus :=
            Nat.div_mul_le_self _ _
          rw [hne, Nat.mul_comm] at h1
          exact h1
        have hle2 : (k * n) % wordModulus ≤ k * n := Nat.mod_le _ _
        have heq : (k * n) % wordModulus = k * n := Nat.le_antisymm hle2 hle1
        have hdiv : k * n / k = n := Nat.mul_div_cancel_left n (Nat.pos_of_ne_zero hk)
        simp only [calloc, if_neg hk, heq] at hp ⊢
        rw [if_neg (by simp [hdiv])] at hp ⊢
        cases hm : malloc st (k * n) with
        | mk st1 r =>
          cases r with
          | none => rw [hm] at hp; simp at hp
          | some bp =>
            rw [hm] at hp
            have hbp : bp = p := Option.some.inj (show some bp = some p from hp)
            subst hbp
            have hcond : bp ≤ bp + j ∧ bp + j < bp + k * n :=
              ⟨Nat.le_add_right _ _, by omega⟩
            show (if bp ≤ bp + j ∧ bp + j < bp + k * n then 0 else st1.data (bp + j)) = 0
            rw [if_pos hcond]

/-- Witness for `calloc_spec`: zero count, an overflowing product, and a
successful zero-initialized allocation on the fresh state. -/
theorem calloc_spec_witness :
    (calloc stFresh 0 100).2 = none ∧
    (calloc stFresh (2 ^ 40) (2 ^ 40)).2 = none ∧
    ((calloc stFresh 3 5).2 = some 16 ∧ (calloc stFresh 3 5).1.data (16 + 14) = 0) := by
  refine ⟨(calloc_spec stFresh 0 100).1 rfl,
    (calloc_spec stFresh (2 ^ 40) (2 ^ 40)).2.1 (by norm_num [wordModulus]),
    ?_, (calloc_spec stFresh 3 5).2.2 16 (by decide) 14 (by decide)⟩
  decide

/-!
## The heap checker (mm.c 1024-1331)

The checkers are transcribed onto the executable state.  The sentinel checks
(`valid_prologue`, `valid_epilogue`) and the doubly-linked `A.next.prev == A`
half of `consistent_pointers` hold by construction in the list
representation and are modelled as constant true; every counting and
per-block check is transcribed faithfully.
-/

/-- Allocation status of the block whose header is at address `a`
(`get_alloc` after the pointer walk); an address that is no block's header
defaults to allocated. -/
def blockAllocAt (st : CHeap) (a : Nat) : Bool :=
  match lookupIdx st.blocks a with
  | some i => (st.blocks.getD i ⟨0, true⟩).alloc
  | none => true

/-- Header size of the block whose header is at address `a`. -/
def blockSizeAt (st : CHeap) (a : Nat) : Nat :=
  match lookupIdx st.blocks a with
  | some i => (st.blocks.getD i ⟨0, true⟩).size
  | none => 0

/-- `valid_prologue` from mm.c: the word before the first block is the size-0
prologue; the model installs it by construction, so the check cannot fail. -/
def valid_prologue (st : CHeap) : Bool := true

/-- `valid_epilogue` from mm.c: the forward walk ends at a size-0 word; the
model's implicit list ends at the epilogue by construction. -/
def valid_epilogue (st : CHeap) : Bool := true

/-- The walk of `valid_blocks`: payload address (`header + 8`) 16-byte
aligned and size at least the minimum, for every block. -/
def valid_blocks_walk : List Block → Nat → Bool
  | [], _ => true
  | b :: rest, cur =>
    (decide ((cur + wsize) % 16 = 0) && decide (min_block_size ≤ b.size)) &&
      valid_blocks_walk rest (cur + b.size)

/-- `valid_blocks` from mm.c (lines 1065-1087). -/
def valid_blocks (st : CHeap) : Bool := valid_blocks_walk st.blocks firstBlockAddr

/-- No two adjacent blocks are both free. -/
def noAdjFreeB : List Block → Bool
  | [] => true
  | [_] => true
  | a :: b :: rest => (a.alloc || b.alloc) && noAdjFreeB (b :: rest)

/-- `check_coalescing` from mm.c (lines 1097-1120): every free block has
allocated neighbours (the prologue and epilogue count as allocated).  The
source reads the predecessor through `find_prev`; the model reads the
predecessor of the implicit list directly. -/
def check_coalescing (st : CHeap) : Bool := noAdjFreeB st.blocks

/-- No node is its own successor. -/
def no_self_next : List Blk → Bool
  | [] => true
  | [_] => true
  | a :: b :: rest => (a.addr != b.addr) && no_self_next (b :: rest)

/-- `no_cycles` from mm.c (lines 1247-1262): no segregated-list node's next
pointer points to itself. -/
def no_cycles (st : CHeap) : Bool := st.segment_list.all no_self_next

/-- `consistent_pointers` from mm.c (lines 1135-1166): every segregated-list
node lies between `mem_heap_lo()` and `mem_heap_hi()`.  The
`A.next.prev == A` half holds by construction in the list representation. -/
def consistent_pointers (st : CHeap) : Bool :=
  st.segment_list.all (fun l => l.all (fun A =>
    decide (mem_heap_lo ≤ A.addr) && decide (A.addr ≤ mem_heap_hi st.blocks)))

/-- `all_free` from mm.c (lines 1224-1237): every segregated-list node is
marked free on the heap. -/
def all_free (st : CHeap) : Bool :=
  st.segment_list.all (fun l => l.all (fun A => !(blockAllocAt st A.addr)))

/-- `list_match_heap` from mm.c (lines 1176-1214): the number of free blocks
met by the heap walk is compared with the number of nodes of the ten
segregated lists.  The source's list count loops over `segment_list` only —
the mini list is not counted. -/
def list_match_heap (st : CHeap) : Bool :=
  let heap_count := (st.blocks.filter (fun b => !b.alloc)).length
  let list_count := (st.segment_list.map List.length).sum
  heap_count == list_count

/-- `mm_checkheap` from mm.c (lines 1272-1331): all checks, in source
order. -/
def mm_checkheap (st : CHeap) : Bool :=
  valid_epilogue st && valid_prologue st && valid_blocks st && check_coalescing st &&
    no_cycles st && consistent_pointers st && all_free st && list_match_heap st

/-- Header addresses of the free blocks of the implicit list. -/
def freeAddrsWalk : List Block → Nat → List Nat
  | [], _ => []
  | b :: rest, cur =>
    if b.alloc then freeAddrsWalk rest (cur + b.size)
    else cur :: freeAddrsWalk rest (cur + b.size)

/-- All free-list nodes: the ten segregated lists followed by the mini
list. -/
def listEntries (st : CHeap) : List Blk :=
  st.segment_list.foldr (fun l acc => l ++ acc) [] ++ st.mini_list

/-- Number of nodes with address `a`. -/
def countAddr (l : List Blk) (a : Nat) : Nat := (l.filter (fun e => e.addr == a)).length

/-- The §3 invariants of the spec, written from the spec's words on the
executable state (the statable ones: sizes, alignment, coalescing
completeness, membership of every free block in exactly one list — mini list
included — absence of allocated blocks from the lists, in-heap pointers, no
self-loops, and the §8 list-heap parity, which counts the ten segregated
lists *and* the mini list).  Invariants 1, 4, 5 and 9 (sentinel termination,
footer/header equality, previous-status bits, doubly-linked consistency)
hold by construction of the representation. -/
def spec_invariants (st : CHeap) : Bool :=
  st.blocks.all (fun b => decide (b.size % 16 = 0) && decide (dsize ≤ b.size)) &&
  (List.range st.blocks.length).all (fun i => decide ((addrAt st.blocks i + wsize) % 16 = 0)) &&
  noAdjFreeB st.blocks &&
  (freeAddrsWalk st.blocks firstBlockAddr).all (fun a => countAddr (listEntries st) a == 1) &&
  (listEntries st).all (fun e => !(blockAllocAt st e.addr)) &&
  (listEntries st).all (fun e => blockSizeAt st e.addr == e.size) &&
  (listEntries st).all (fun e =>
    decide (mem_heap_lo ≤ e.addr) && decide (e.addr ≤ mem_heap_hi st.blocks)) &&
  (st.segment_list.all no_self_next && no_self_next st.mini_list) &&
  ((st.blocks.filter (fun b => !b.alloc)).length
    == (st.segment_list.map List.length).sum + st.mini_list.length)

/-- The state reached by `p1 = malloc(8); p2 = malloc(8); free(p1)` on the
fresh heap (the first malloc runs `mm_init` itself): the implicit list is
[free 16 | allocated 16 | free 4064], the freed mini block sits in the mini
list, and the 4064-byte block sits in segregated class 8. -/
def stMiniBug : CHeap := free (malloc (malloc stFresh 8).1 8).1 16

/-- C6 (code bug): on the reachable, fully §3-valid state `stMiniBug` — whose
free blocks are one mini block (held in the mini list) and one class-8 block —
`mm_checkheap` returns false: its `list_match_heap` pass counts two free
blocks in the heap walk but only one list node, because the source never
counts the mini list. -/
theorem mm_checkheap_rejects_valid_heap :
    stMiniBug.blocks = [⟨16, false⟩, ⟨16, true⟩, ⟨4064, false⟩] ∧
    stMiniBug.mini_list = [⟨8, 16⟩] ∧
    spec_invariants stMiniBug = true ∧
    list_match_heap stMiniBug = false ∧
    mm_checkheap stMiniBug = false := by
  refine ⟨by decide, by decide, by decide, by decide, by decide⟩

/-!
## Relational model of the implicit list (for the universal invariants)

For the invariants that hold "for every sequence of valid API calls" the
implicit list alone matters.  `coalesce_block` below is the effect of the
source's coalescer on the implicit list (its four cases, with the free-list
bookkeeping projected away); `place` is the effect of `malloc`'s placement
(`write_block` allocated + `split_block`).  `Reach` closes the initial heap
under these effects, with the block chosen by `find_fit`/`extend_heap` left
nondeterministic — every run of the source is one of its traces.  The
source decides "previous/next block free" from the header bits, which
`write_block` keeps equal to the neighbours' true status (word-level model
above); the relational model reads the neighbours directly.
-/

/-- `malloc`'s placement of a free block `b` (mm.c 1429-1438 and
`split_block`): mark it allocated; if the slack is at least a mini block,
split the remainder off as a free block. -/
def place (b : Block) (asize : Nat) : List Block :=
  if min_block_size ≤ b.size - asize then [⟨asize, true⟩, ⟨b.size - asize, false⟩]
  else [⟨b.size, true⟩]

/-- Implicit lists reachable by valid API call sequences.  `init` is the heap
after `mm_init` (one free chunk); `alloc` services a request of `n > 0`
bytes from some free block of sufficient size (the fit finder's choice is
nondeterministic); `mfree` frees an allocated block and coalesces it;
`extend` grows the heap by `round_up (max (asize, chunksize)) 16` bytes and
coalesces the new block, as `malloc` does when no fit exists. -/
inductive Reach : List Block → Prop
  | init : Reach [⟨chunksize, false⟩]
  | alloc (pre : List Block) (b : Block) (post : List Block) (n : Nat) :
      Reach (pre ++ b :: post) → b.alloc = false → 1 ≤ n →
      malloc_asize n ≤ b.size →
      Reach (pre ++ place b (malloc_asize n) ++ post)
  | mfree (pre : List Block) (b : Block) (post : List Block) :
      Reach (pre ++ b :: post) → b.alloc = true →
      Reach (coalesce_block pre ⟨b.size, false⟩ post)
  | extend (bs : List Block) (n : Nat) : Reach bs → 1 ≤ n →
      Reach (coalesce_block bs ⟨round_up (maxOf (malloc_asize n) chunksize) dsize, false⟩ [])

/-- Invariant 2 of §3: all block sizes are multiples of 16 and at least 16. -/
def sizesOK (bs : List Block) : Prop := ∀ b ∈ bs, b.size % 16 = 0 ∧ 16 ≤ b.size

/-- Invariant 6 of §3 on one adjacent pair: not both free. -/
def adjOK (a b : Block) : Prop := a.alloc = true ∨ b.alloc = true

theorem sizesOK_append {l₁ l₂ : List Block} :
    sizesOK (l₁ ++ l₂) ↔ sizesOK l₁ ∧ sizesOK l₂ := by
  constructor
  · intro h
    exact ⟨fun b hb => h b (List.mem_append_left _ hb),
      fun b hb => h b (List.mem_append_right _ hb)⟩
  · rintro ⟨h₁, h₂⟩ b hb
    rcases List.mem_append.mp hb with hb | hb
    · exact h₁ b hb
    · exact h₂ b hb

theorem sizesOK_cons {b : Block} {l : List Block} :
    sizesOK (b :: l) ↔ (b.size % 16 = 0 ∧ 16 ≤ b.size) ∧ sizesOK l := by
  constructor
  · intro h
    exact ⟨h b (List.mem_cons_self _ _), fun c hc => h c (List.mem_cons_of_mem _ hc)⟩
  · rintro ⟨hb, hl⟩ c hc
    rcases List.mem_cons.mp hc with hc | hc
    · exact hc ▸ hb
    · exact hl c hc

theorem sizesOK_nil : sizesOK [] := fun b hb => absurd hb (List.not_mem_nil b)

/-- The coalescer preserves the block-size facts and re-establishes
coalescing completeness: merging the freed block with its free neighbours
leaves no adjacent pair of free blocks. -/
theorem coalesce_block_inv (pre : List Block) (b : Block) (post : List Block)
    (hszpre : sizesOK pre) (hszpost : sizesOK post)
    (hb : b.size % 16 = 0 ∧ 16 ≤ b.size)
    (hchpre : List.Chain' adjOK pre) (hchpost : List.Chain' adjOK post)
    (hbf : b.alloc = false) :
    sizesOK (coalesce_block pre b post) ∧ List.Chain' adjOK (coalesce_block pre b post) := by
  rcases List.eq_nil_or_concat' pre with hpre | ⟨pre', p, hpre⟩
  · subst hpre
    cases post with
    | nil =>
      have hred : coalesce_block [] b [] = [b] := by
        simp [coalesce_block]
      rw [hred]
      exact ⟨sizesOK_cons.mpr ⟨hb, sizesOK_nil⟩, List.chain'_singleton b⟩
    | cons q rest =>
      have hszq := hszpost q (List.mem_cons_self _ _)
      have hszrest : sizesOK rest := fun c hc => hszpost c (List.mem_cons_of_mem _ hc)
      cases hq : q.alloc with
      | true =>
        have hred : coalesce_block [] b (q :: rest) = b :: q :: rest := by
          simp [coalesce_block, hq]
        rw [hred]
        exact ⟨sizesOK_cons.mpr ⟨hb, hszpost⟩,
          List.chain'_cons.mpr ⟨Or.inr hq, hchpost⟩⟩
      | false =>
        have hred : coalesce_block [] b (q :: rest) = ⟨b.size + q.size, false⟩ :: rest := by
          simp [coalesce_block, hq]
        rw [hred]
        obtain ⟨hqy, hchrest⟩ := List.chain'_cons'.mp hchpost
        refine ⟨sizesOK_cons.mpr ⟨⟨show (b.size + q.size) % 16 = 0 by omega,
          show 16 ≤ b.size + q.size by omega⟩, hszrest⟩, ?_⟩
        refine List.chain'_cons'.mpr ⟨?_, hchrest⟩
        intro y hy
        rcases hqy y hy with h | h
        · rw [hq] at h; exact absurd h (by simp)
        · exact Or.inr h
  · subst hpre
    obtain ⟨hchpre', hchp, hxp⟩ := List.chain'_append.mp hchpre
    have hxp' : ∀ x ∈ pre'.getLast?, adjOK x p := by
      intro x hx
      exact hxp x hx p (by simp)
    have hszp := hszpre p (List.mem_append_right _ (List.mem_cons_self _ _))
    have hszpre' : sizesOK pre' := fun c hc => hszpre c (List.mem_append_left _ hc)
    cases post with
    | nil =>
      cases hp : p.alloc with
      | true =>
        have hred : coalesce_block (pre' ++ [p]) b [] = (pre' ++ [p]) ++ [b] := by
          simp [coalesce_block, hp]
        rw [hred]
        refine ⟨sizesOK_append.mpr ⟨hszpre, sizesOK_cons.mpr ⟨hb, sizesOK_nil⟩⟩, ?_⟩
        refine List.chain'_append.mpr ⟨hchpre, List.chain'_singleton b, ?_⟩
        intro x hx y hy
        simp only [List.getLast?_concat, Option.mem_some_iff] at hx
        subst hx
        exact Or.inl hp
      | false =>
        have hred : coalesce_block (pre' ++ [p]) b []
            = pre' ++ [⟨p.size + b.size, false⟩] := by
          simp [coalesce_block, hp, List.dropLast_concat]
        rw [hred]
        refine ⟨sizesOK_append.mpr ⟨hszpre',
          sizesOK_cons.mpr ⟨⟨show (p.size + b.size) % 16 = 0 by omega,
            show 16 ≤ p.size + b.size by omega⟩, sizesOK_nil⟩⟩, ?_⟩
        refine List.chain'_append.mpr ⟨hchpre', List.chain'_singleton _, ?_⟩
        intro x hx y hy
        simp only [List.head?_cons, Option.mem_some_iff] at hy
        subst hy
        rcases hxp' x hx with h | h
        · exact Or.inl h
        · rw [hp] at h; exact absurd h (by simp)
    | cons q rest =>
      have hszq := hszpost q (List.mem_cons_self _ _)
      have hszrest : sizesOK rest := fun c hc => hszpost c (List.mem_cons_of_mem _ hc)
      obtain ⟨hqy, hchrest⟩ := List.chain'_cons'.mp hchpost
      have hqy' : q.alloc = false → ∀ y ∈ rest.head?, y.alloc = true := by
        intro hq y hy
        rcases hqy y hy with h | h
        · rw [hq] at h; exact absurd h (by simp)
        · exact h
      cases hp : p.alloc with
      | true =>
        cases hq : q.alloc with
        | true =>
          have hred : coalesce_block (pre' ++ [p]) b (q :: rest)
              = (pre' ++ [p]) ++ b :: q :: rest := by
            simp [coalesce_block, hp, hq]
          rw [hred]
          refine ⟨sizesOK_append.mpr ⟨hszpre, sizesOK_cons.mpr ⟨hb, hszpost⟩⟩, ?_⟩
          refine List.chain'_append.mpr ⟨hchpre,
            List.chain'_cons.mpr ⟨Or.inr hq, hchpost⟩, ?_⟩
          intro x hx y hy
          simp only [List.getLast?_concat, Option.mem_some_iff] at hx
          simp only [List.head?_cons, Option.mem_some_iff] at hy
          subst hx; subst hy
          exact Or.inl hp
        | false =>
          have hred : coalesce_block (pre' ++ [p]) b (q :: rest)
              = (pre' ++ [p]) ++ ⟨b.size + q.size, false⟩ :: rest := by
            simp [coalesce_block, hp, hq]
          rw [hred]
          refine ⟨sizesOK_append.mpr ⟨hszpre,
            sizesOK_cons.mpr ⟨⟨show (b.size + q.size) % 16 = 0 by omega,
              show 16 ≤ b.size + q.size by omega⟩, hszrest⟩⟩, ?_⟩
          refine List.chain'_append.mpr ⟨hchpre, ?_, ?_⟩
          · refine List.chain'_cons'.mpr ⟨?_, hchrest⟩
            intro y hy
            exact Or.inr (hqy' hq y hy)
          · intro x hx y hy
            simp only [List.getLast?_concat, Option.mem_some_iff] at hx
            subst hx
            exact Or.inl hp
      | false =>
        cases hq : q.alloc with
        | true =>
          have hred : coalesce_block (pre' ++ [p]) b (q :: rest)
              = pre' ++ ⟨p.size + b.size, false⟩ :: q :: rest := by
            simp [coalesce_block, hp, hq, List.dropLast_concat]
          rw [hred]
          refine ⟨sizesOK_append.mpr ⟨hszpre',
            sizesOK_cons.mpr ⟨⟨show (p.size + b.size) % 16 = 0 by omega,
              show 16 ≤ p.size + b.size by omega⟩, hszpost⟩⟩, ?_⟩
          refine List.chain'_append.mpr ⟨hchpre',
            List.chain'_cons.mpr ⟨Or.inr hq, hchpost⟩, ?_⟩
          intro x hx y hy
          simp only [List.head?_cons, Option.mem_some_iff] at hy
          subst hy
          rcases hxp' x hx with h | h
          · exact Or.inl h
          · rw [hp] at h; exact absurd h (by simp)
        | false =>
          have hred : coalesce_block (pre' ++ [p]) b (q :: rest)
              = pre' ++ ⟨p.size + b.size + q.size, false⟩ :: rest := by
            simp [coalesce_block, hp, hq, List.dropLast_concat]
          rw [hred]
          refine ⟨sizesOK_append.mpr ⟨hszpre',
            sizesOK_cons.mpr ⟨⟨show (p.size + b.size + q.size) % 16 = 0 by omega,
              show 16 ≤ p.size + b.size + q.size by omega⟩, hszrest⟩⟩, ?_⟩
          refine List.chain'_append.mpr ⟨hchpre', ?_, ?_⟩
          · refine List.chain'_cons'.mpr ⟨?_, hchrest⟩
            intro y hy
            exact Or.inr (hqy' hq y hy)
          · intro x hx y hy
            simp only [List.head?_cons, Option.mem_some_iff] at hy
            subst hy
            rcases hxp' x hx with h | h
            · exact Or.inl h
            · rw [hp] at h; exact absurd h (by simp)

/-- Every reachable implicit list has 16-multiple block sizes of at least 16
and no two adjacent free blocks. -/
theorem reach_invariant (bs : List Block) (h : Reach bs) :
    sizesOK bs ∧ List.Chain' adjOK bs := by
  induction h with
  | init =>
    refine ⟨?_, List.chain'_singleton _⟩
    intro c hc
    simp only [List.mem_singleton] at hc
    subst hc
    exact ⟨by decide, by decide⟩
  | alloc pre b post n hreach hfree hn hfit ih =>
    obtain ⟨hsz, hch⟩ := ih
    obtain ⟨hszpre, hszbp⟩ := sizesOK_append.mp hsz
    obtain ⟨hbsz, hszpost⟩ := sizesOK_cons.mp hszbp
    obtain ⟨hchpre, hchbp, hbd⟩ := List.chain'_append.mp hch
    obtain ⟨hby, hchpost⟩ := List.chain'_cons'.mp hchbp
    have hposthead : ∀ y ∈ post.head?, y.alloc = true := by
      intro y hy
      rcases hby y hy with h | h
      · rw [hfree] at h; exact absurd h (by simp)
      · exact h
    obtain ⟨hm16, hm16le⟩ := malloc_asize_pos n hn
    by_cases hsplit : min_block_size ≤ b.size - malloc_asize n
    · have hred : pre ++ place b (malloc_asize n) ++ post
          = pre ++ (⟨malloc_asize n, true⟩ :: ⟨b.size - malloc_asize n, false⟩ :: post) := by
        simp [place, hsplit, List.append_assoc]
      rw [hred]
      have h16 : (16 : Nat) ≤ b.size - malloc_asize n := hsplit
      constructor
      · refine sizesOK_append.mpr ⟨hszpre, ?_⟩
        refine sizesOK_cons.mpr ⟨⟨hm16, hm16le⟩, ?_⟩
        refine sizesOK_cons.mpr
          ⟨⟨show (b.size - malloc_asize n) % 16 = 0 by omega, h16⟩, hszpost⟩
      · refine List.chain'_append.mpr ⟨hchpre, ?_, ?_⟩
        · refine List.chain'_cons.mpr ⟨Or.inl rfl, ?_⟩
          refine List.chain'_cons'.mpr ⟨?_, hchpost⟩
          intro y hy
          exact Or.inr (hposthead y hy)
        · intro x hx y hy
          simp only [List.head?_cons, Option.mem_some_iff] at hy
          subst hy
          exact Or.inr rfl
    · have hred : pre ++ place b (malloc_asize n) ++ post
          = pre ++ (⟨b.size, true⟩ :: post) := by
        simp [place, hsplit, List.append_assoc]
      rw [hred]
      constructor
      · exact sizesOK_append.mpr ⟨hszpre, sizesOK_cons.mpr ⟨hbsz, hszpost⟩⟩
      · refine List.chain'_append.mpr ⟨hchpre, ?_, ?_⟩
        · refine List.chain'_cons'.mpr ⟨?_, hchpost⟩
          intro y hy
          exact Or.inr (hposthead y hy)
        · intro x hx y hy
          simp only [List.head?_cons, Option.mem_some_iff] at hy
          subst hy
          exact Or.inr rfl
  | mfree pre b post hreach halloc ih =>
    obtain ⟨hsz, hch⟩ := ih
    obtain ⟨hszpre, hszbp⟩ := sizesOK_append.mp hsz
    obtain ⟨hbsz, hszpost⟩ := sizesOK_cons.mp hszbp
    obtain ⟨hchpre, hchbp, _⟩ := List.chain'_append.mp hch
    obtain ⟨_, hchpost⟩ := List.chain'_cons'.mp hchbp
    exact coalesce_block_inv pre ⟨b.size, false⟩ post hszpre hszpost hbsz hchpre hchpost rfl
  | extend bs n hreach hn ih =>
    obtain ⟨hsz, hch⟩ := ih
    have hs1 : 1 ≤ maxOf (malloc_asize n) chunksize := by
      simp only [maxOf, chunksize]
      split <;> omega
    refine coalesce_block_inv bs _ [] hsz sizesOK_nil ⟨?_, ?_⟩ hch List.chain'_nil rfl
    · exact round_up_mod _
    · exact round_up_ge _ hs1

/-- `header_to_payload` from mm.c (line 283): the payload starts
`offsetof(block_t, payload) = 8` bytes after the block header. -/
def header_to_payload (block : Nat) : Nat := block + wsize

theorem sumSizes_mod16 (l : List Block) (h : ∀ b ∈ l, b.size % 16 = 0) :
    sumSizes l % 16 = 0 := by
  induction l with
  | nil => simp [sumSizes]
  | cons b rest ih =>
    have hb := h b (List.mem_cons_self _ _)
    have hrest := ih (fun c hc => h c (List.mem_cons_of_mem _ hc))
    simp only [sumSizes, List.map_cons, List.sum_cons] at *
    omega

theorem sumSizes_take_mod16 (bs : List Block) (hs : sizesOK bs) (i : Nat) :
    sumSizes (bs.take i) % 16 = 0 :=
  sumSizes_mod16 _ (fun b hb => (hs b (List.take_subset i bs hb)).1)

/-- C2: between API calls — in particular after every `free` and on return
from `coalesce_block` — no two adjacent blocks of the implicit list are both
free: every reachable implicit list satisfies coalescing completeness. -/
theorem free_coalescing_completeness (bs : List Block) (h : Reach bs) :
    List.Chain' adjOK bs :=
  (reach_invariant bs h).2

/-- Witness for `free_coalescing_completeness` on the state reached by
`malloc(8); malloc(8); free(p1)`: the trace init → alloc → alloc → free
produces [free 16 | allocated 16 | free 4064], and no adjacent pair is both
free. -/
theorem free_coalescing_completeness_witness :
    List.Chain' adjOK (coalesce_block [] ⟨16, false⟩ [⟨16, true⟩, ⟨4064, false⟩]) :=
  free_coalescing_completeness _
    (Reach.mfree [] ⟨16, true⟩ [⟨16, true⟩, ⟨4064, false⟩]
      (Reach.alloc [⟨16, true⟩] ⟨4080, false⟩ [] 8
        (Reach.alloc [] ⟨4096, false⟩ [] 8 Reach.init rfl (by decide) (by decide))
        rfl (by decide) (by decide))
      rfl)

/-- C1: in every reachable heap the payload address of every block —
in particular the pointer `header_to_payload(block)` that a successful
`malloc` returns — is 16-byte aligned. -/
theorem malloc_payload_alignment (bs : List Block) (h : Reach bs) (i : Nat)
    (hi : i < bs.length) :
    header_to_payload (addrAt bs i) % 16 = 0 := by
  have hs := (reach_invariant bs h).1
  have hm := sumSizes_take_mod16 bs hs i
  simp only [header_to_payload, addrAt, firstBlockAddr, mem_heap_lo, wsize]
  omega

/-- Witness for `malloc_payload_alignment`: the first block of the initial
heap has payload address 16. -/
theorem malloc_payload_alignment_witness :
    header_to_payload (addrAt [⟨chunksize, false⟩] 0) % 16 = 0 :=
  malloc_payload_alignment [⟨chunksize, false⟩] Reach.init 0 (by decide)

/-- C9 counterexample: in the initial heap — a reachable state of the heap
after `mm_init` — the first block's header address is
`mem_heap_lo + 8 = 8`, which is not 16-byte aligned: block (header)
addresses are congruent to 8 modulo 16, not to 0. -/
theorem block_addr_alignment_cex :
    Reach [⟨chunksize, false⟩] ∧ addrAt [⟨chunksize, false⟩] 0 = 8 ∧
      ¬ addrAt [⟨chunksize, false⟩] 0 % 16 = 0 :=
  ⟨Reach.init, by decide, by decide⟩

/-- C9 (amended): in every reachable heap, every block's header address is
congruent to 8 modulo 16 — equivalently, every payload address is 16-byte
aligned — and every block's size is a multiple of 16 (and at least 16). -/
theorem block_addr_size_invariant (bs : List Block) (h : Reach bs) (i : Nat)
    (hi : i < bs.length) :
    addrAt bs i % 16 = 8 ∧ (bs.getD i ⟨0, true⟩).size % 16 = 0 ∧
      16 ≤ (bs.getD i ⟨0, true⟩).size := by
  have hs := (reach_invariant bs h).1
  have hm := sumSizes_take_mod16 bs hs i
  have hmem : bs.getD i ⟨0, true⟩ ∈ bs := by
    rw [List.getD_eq_getElem bs ⟨0, true⟩ hi]
    exact List.getElem_mem hi
  have hsb := hs _ hmem
  refine ⟨?_, hsb.1, hsb.2⟩
  simp only [addrAt, firstBlockAddr, mem_heap_lo, wsize]
  omega

/-- Witness for `block_addr_size_invariant` at the initial heap's only
block: address 8 ≡ 8 (mod 16), size 4096. -/
theorem block_addr_size_invariant_witness :
    addrAt [⟨chunksize, false⟩] 0 % 16 = 8 ∧
      (([⟨chunksize, false⟩] : List Block).getD 0 ⟨0, true⟩).size % 16 = 0 ∧
      16 ≤ (([⟨chunksize, false⟩] : List Block).getD 0 ⟨0, true⟩).size :=
  block_addr_size_invariant [⟨chunksize, false⟩] Reach.init 0 (by decide)

end MM
